import Mathlib

/-!
Shallow embedding of the Game-of-Life core from src/board.rs (crate gol) and its
serde-derived JSON codec (used by src/main.rs for Save/Load), together with
theorems settling the specification's claims about it.

Conventions of the embedding:
* Rust usize is modelled as Nat; overflow matters only in checked_mul, where the
  usize bound 2^64 - 1 appears explicitly.
* `size : [usize; 2]` is modelled as a pair; `size.1` is size[0] (the width),
  `size.2` is size[1] (the height).
* Panicking operations (assert failure, Vec out-of-bounds indexing, constructor
  overflow) are modelled as Option-returning functions, none meaning abort.
* Rust usize subtraction coincides with truncated Nat subtraction on every
  subtraction actually reachable from the public entry points, so Nat
  subtraction is used directly.
-/

/-- usize::MAX on a 64-bit platform. -/
def USIZE_MAX : Nat := 2 ^ 64 - 1

/-- usize::checked_mul: some product unless it exceeds usize::MAX. -/
def checked_mul (a b : Nat) : Option Nat :=
  if a * b ≤ USIZE_MAX then some (a * b) else none

/-- The Board struct of src/board.rs: `size: [usize; 2]` (width, height) and
`data: Vec<bool>` in row-major order. -/
structure Board where
  size : Nat × Nat
  data : List Bool
deriving DecidableEq

/-- Board::new: allocates width*height dead cells; the source panics when
`width * height` overflows usize (modelled as none). -/
def Board.new (width height : Nat) : Option Board :=
  match checked_mul width height with
  | some length => some { size := (width, height), data := List.replicate length false }
  | none => none

/-- The Index impl of src/board.rs: asserts `x < width` and `y < height`, then
reads `data[y * width + x]` (a Vec bounds panic there is also modelled as none). -/
def Board.index (b : Board) (p : Nat × Nat) : Option Bool :=
  let (y, x) := p
  if x < b.size.1 then
    if y < b.size.2 then b.data[y * b.size.1 + x]?
    else none
  else none

/-- The IndexMut impl followed by an assignment (`board[(y, x)] = v`): asserts
`x < width` and `y < height`, then writes `data[y * width + x]`. -/
def Board.set (b : Board) (p : Nat × Nat) (v : Bool) : Option Board :=
  let (y, x) := p
  if x < b.size.1 then
    if y < b.size.2 then
      if y * b.size.1 + x < b.data.length then
        some { b with data := b.data.set (y * b.size.1 + x) v }
      else none
    else none
  else none

/-- Rust inclusive range `a..=b`, as the list of its elements. -/
def rangeIncl (a b : Nat) : List Nat := List.range' a (b + 1 - a)

/-- The `x_iter` of Board::live_neighbors: the clamped inclusive column range. -/
def Board.colRange (b : Board) (x : Nat) : List Nat :=
  if x = 0 then rangeIncl 0 1
  else if x = b.size.1 - 1 then rangeIncl (b.size.1 - 2) (b.size.1 - 1)
  else rangeIncl (x - 1) (x + 1)

/-- The `y_iter` of Board::live_neighbors. The upper-edge test in the source is
`y == self.size[0] - 1`, i.e. against size[0] (the width), while the range it
produces uses size[1] (the height); this is embedded exactly as written. -/
def Board.rowRange (b : Board) (y : Nat) : List Nat :=
  if y = 0 then rangeIncl 0 1
  else if y = b.size.1 - 1 then rangeIncl (b.size.2 - 2) (b.size.2 - 1)
  else rangeIncl (y - 1) (y + 1)

/-- Board::live_neighbors: sums, over the cartesian product of the clamped row
and column windows, 1 for each live cell other than the center. Any
out-of-bounds index aborts (none). -/
def Board.live_neighbors (b : Board) (p : Nat × Nat) : Option Nat :=
  let (y, x) := p
  let cells := (b.rowRange y).flatMap fun j => (b.colRange x).map fun i => (j, i)
  (cells.mapM fun c =>
    (b.index c).map fun v => if v && !(c.2 == x && c.1 == y) then (1 : Nat) else 0).map
    List.sum

/-- The per-cell alive test of Board::next:
`live_neighbors == 3 || (live_neighbors == 2 && self[(j, i)])`, with the Rust
short-circuit (`self[(j, i)]` is read only when the count is exactly 2). -/
def Board.nextCheck (b : Board) (j i : Nat) : Option Bool :=
  (b.live_neighbors (j, i)).bind fun n =>
    if n = 3 then some true
    else if n = 2 then b.index (j, i)
    else some false

/-- One iteration of the inner loop body of Board::next: when the cell test
holds, `next[(j, i)] = true`, otherwise the accumulator is left unchanged. -/
def Board.nextCell (b : Board) (j i : Nat) (acc : Board) : Option Board :=
  (b.nextCheck j i).bind fun alive =>
    if alive then acc.set (j, i) true else some acc

/-- The inner loop of Board::next: `for i in 0..self.size[0]`. -/
def Board.nextRow (b : Board) (j : Nat) (acc : Board) : Option Board :=
  (List.range b.size.1).foldlM (fun a i => b.nextCell j i a) acc

/-- Board::next: builds a fresh all-dead board of the same dimensions, then for
`j in 0..self.size[1]`, `i in 0..self.size[0]` applies the B3/S23 rule. -/
def Board.next (b : Board) : Option Board :=
  (Board.new b.size.1 b.size.2).bind fun start =>
    (List.range b.size.2).foldlM (fun a j => b.nextRow j a) start

/-- One iteration of the inner loop body of Board::resize:
`new[(y, x)] = self[(y, x)]`. -/
def Board.resizeCell (b : Board) (y x : Nat) (acc : Board) : Option Board :=
  (b.index (y, x)).bind fun v => acc.set (y, x) v

/-- Board::resize: builds a fresh all-dead board of the requested dimensions,
then copies the overlap `y < min(height, self.size[1])`,
`x < min(width, self.size[0])` from the source board. -/
def Board.resize (b : Board) (width height : Nat) : Option Board :=
  (Board.new width height).bind fun start =>
    (List.range (min height b.size.2)).foldlM
      (fun a y =>
        (List.range (min width b.size.1)).foldlM (fun a2 x => b.resizeCell y x a2) a)
      start

/-- The value Board::next assigns at (j, i) when every read it performs
succeeds: true iff the live-neighbor count is 3, or is 2 and the cell is
currently alive. -/
def Board.nextVal (b : Board) (j i : Nat) : Bool :=
  match b.live_neighbors (j, i) with
  | some n => n == 3 || (n == 2 && b.data.getD (j * b.size.1 + i) false)
  | none => false

/-! ## The JSON codec

Board derives serde Serialize/Deserialize, and src/main.rs runs them through
serde_json (Save/Load). JSON values are modelled structurally (numbers as
integers, which covers every value the codec itself emits). The derived
deserializer for a struct, fed a JSON object, walks the fields in order:
a known field is decoded by type (erroring on a duplicate), an unknown field is
ignored (serde's default, no deny_unknown_fields on Board), and a missing
required field at the end is an error. No cross-field validation is generated:
the lengths of size and data are never compared. -/

inductive Json where
  | null
  | bool (b : Bool)
  | num (n : Int)
  | str (s : String)
  | arr (elems : List Json)
  | obj (fields : List (String × Json))

/-- Deserializing a usize: a nonnegative integer no larger than usize::MAX. -/
def decodeUsize : Json → Option Nat
  | Json.num n => if 0 ≤ n ∧ n ≤ (USIZE_MAX : Int) then some n.toNat else none
  | _ => none

/-- Deserializing a bool. -/
def decodeBool : Json → Option Bool
  | Json.bool b => some b
  | _ => none

/-- Deserializing `[usize; 2]`: an array of exactly two usizes. -/
def decodeSize : Json → Option (Nat × Nat)
  | Json.arr [a, b] => (decodeUsize a).bind fun w => (decodeUsize b).map fun h => (w, h)
  | _ => none

/-- Deserializing `Vec<bool>`: an array of bools, of any length. -/
def decodeData : Json → Option (List Bool)
  | Json.arr xs => xs.mapM decodeBool
  | _ => none

/-- The field walk of the derived Deserialize impl for Board: `sz` and `dt`
hold the fields seen so far; duplicates error, unknown fields are skipped,
and both fields must be present at the end. -/
def decodeFields : List (String × Json) → Option (Nat × Nat) → Option (List Bool) →
    Option Board
  | [], sz, dt => sz.bind fun s => dt.map fun d => { size := s, data := d }
  | (k, v) :: rest, sz, dt =>
    if k = "size" then
      match sz with
      | some _ => none
      | none => (decodeSize v).bind fun s => decodeFields rest (some s) dt
    else if k = "data" then
      match dt with
      | some _ => none
      | none => (decodeData v).bind fun d => decodeFields rest sz (some d)
    else decodeFields rest sz dt

/-- The derived Deserialize impl for Board applied to a JSON value. (serde_json
also accepts a sequence encoding of a struct; the claims only concern the
record form, which is the only form the serializer emits.) -/
def Board.deserialize (j : Json) : Option Board :=
  match j with
  | Json.obj fields => decodeFields fields none none
  | _ => none

/-- The derived Serialize impl for Board through serde_json: the record
`{ "size": [width, height], "data": [bool, ...] }` (pretty-printing whitespace
is not part of the value model). -/
def Board.serialize (b : Board) : Json :=
  Json.obj [("size", Json.arr [Json.num (b.size.1 : Int), Json.num (b.size.2 : Int)]),
            ("data", Json.arr (b.data.map Json.bool))]

/-- The record `{ "size": [w, h], "data": d }` as a JSON value. -/
def boardRecord (w h : Nat) (d : List Bool) : Json :=
  Json.obj [("size", Json.arr [Json.num (w : Int), Json.num (h : Int)]),
            ("data", Json.arr (d.map Json.bool))]

/-- Modelled from the spec: the row window prescribed by §4.2 ("Rows: if
`y == 0`, use `[0, 1]`; if `y == height − 1`, use `[height − 2, height − 1]`;
otherwise `[y − 1, y + 1]`"), clamped against the height. Stated only to be
compared with Board.rowRange, whose upper-edge test reads the width. -/
def specRowRange (height y : Nat) : List Nat :=
  if y = 0 then rangeIncl 0 1
  else if y = height - 1 then rangeIncl (height - 2) (height - 1)
  else rangeIncl (y - 1) (y + 1)

/-! ## Generic Option-fold lemmas -/

/-- If some element of the list makes the step function fail regardless of the
accumulator, the whole monadic fold fails. -/
theorem foldlM_none_of_mem {α β : Type} {l : List α} {f : β → α → Option β} {a : β}
    {x : α} (hx : x ∈ l) (hf : ∀ b, f b x = none) : l.foldlM f a = none := by
  induction l generalizing a with
  | nil => cases hx
  | cons y ys ih =>
    rw [List.foldlM_cons]
    rcases List.mem_cons.mp hx with rfl | hmem
    · rw [hf a]; rfl
    · cases hfa : f a y with
      | none => rfl
      | some a2 => simpa [hfa] using ih hmem

/-- If every step fixes the accumulator, the fold returns the start value. -/
theorem foldlM_some_id {α β : Type} {l : List α} {f : β → α → Option β} {a : β}
    (hf : ∀ b x, x ∈ l → f b x = some b) : l.foldlM f a = some a := by
  induction l generalizing a with
  | nil => rfl
  | cons y ys ih =>
    rw [List.foldlM_cons, hf a y (List.mem_cons_self y ys)]
    exact ih fun b x hx => hf b x (List.mem_cons_of_mem y hx)

/-- A property preserved by every successful step is preserved by a successful
fold. -/
theorem foldlM_preserves {α β : Type} {l : List α} {f : β → α → Option β} {a res : β}
    {P : β → Prop} (ha : P a)
    (hstep : ∀ b b2 x, x ∈ l → P b → f b x = some b2 → P b2)
    (hfold : l.foldlM f a = some res) : P res := by
  induction l generalizing a with
  | nil => simp only [List.foldlM_nil] at hfold; cases hfold; exact ha
  | cons y ys ih =>
    rw [List.foldlM_cons] at hfold
    cases hfa : f a y with
    | none => rw [hfa] at hfold; cases hfold
    | some a2 =>
      rw [hfa] at hfold
      exact ih (hstep a a2 y (List.mem_cons_self y ys) ha hfa)
        (fun b b2 x hx => hstep b b2 x (List.mem_cons_of_mem y hx)) hfold

/-- If some element of the list fails to map, the whole monadic map fails. -/
theorem mapM_none_of_mem {α β : Type} {l : List α} {f : α → Option β} {x : α}
    (hx : x ∈ l) (hf : f x = none) : l.mapM f = none := by
  induction l with
  | nil => cases hx
  | cons y ys ih =>
    rcases List.mem_cons.mp hx with rfl | hmem
    · rw [List.mapM_cons, hf]; rfl
    · cases hfy : f y with
      | none => rw [List.mapM_cons, hfy]; rfl
      | some b => rw [List.mapM_cons, hfy, ih hmem]; rfl

/-! ## Row-major flat-index arithmetic -/

/-- Row-major addresses of in-range cells are injective. -/
theorem flat_inj {w j i j2 i2 : Nat} (h1 : i < w) (h2 : i2 < w)
    (he : j * w + i = j2 * w + i2) : j = j2 ∧ i = i2 := by
  have hw : 0 < w := lt_of_le_of_lt (Nat.zero_le i) h1
  have d1 : (j * w + i) / w = j := by
    rw [Nat.add_comm, Nat.mul_comm, Nat.add_mul_div_left i j hw, Nat.div_eq_of_lt h1,
      Nat.zero_add]
  have d2 : (j2 * w + i2) / w = j2 := by
    rw [Nat.add_comm, Nat.mul_comm, Nat.add_mul_div_left i2 j2 hw, Nat.div_eq_of_lt h2,
      Nat.zero_add]
  have m1 : (j * w + i) % w = i := by
    rw [Nat.add_comm, Nat.mul_comm, Nat.add_mul_mod_self_left, Nat.mod_eq_of_lt h1]
  have m2 : (j2 * w + i2) % w = i2 := by
    rw [Nat.add_comm, Nat.mul_comm, Nat.add_mul_mod_self_left, Nat.mod_eq_of_lt h2]
  rw [he] at d1 m1
  exact ⟨d1.symm.trans d2, m1.symm.trans m2⟩

/-- Row-major addresses of in-range cells are in range of the data array. -/
theorem flat_lt {w h j i : Nat} (hj : j < h) (hi : i < w) : j * w + i < w * h :=
  calc j * w + i < j * w + w := Nat.add_lt_add_left hi _
    _ = (j + 1) * w := (Nat.succ_mul j w).symm
    _ ≤ h * w := Nat.mul_le_mul_right w hj
    _ = w * h := Nat.mul_comm h w

/-! ## Small facts about the Board operations -/

theorem Board.new_some {w h : Nat} (hmul : w * h ≤ USIZE_MAX) :
    Board.new w h = some ⟨(w, h), List.replicate (w * h) false⟩ := by
  simp [Board.new, checked_mul, hmul]

theorem Board.new_some_inv {w h : Nat} {bd : Board} (hn : Board.new w h = some bd) :
    w * h ≤ USIZE_MAX ∧ bd = ⟨(w, h), List.replicate (w * h) false⟩ := by
  by_cases hmul : w * h ≤ USIZE_MAX
  · rw [Board.new_some hmul] at hn
    exact ⟨hmul, (Option.some_inj.mp hn).symm⟩
  · simp [Board.new, checked_mul, hmul] at hn

theorem Board.set_eq_some {b : Board} {y x : Nat} {v : Bool} (hx : x < b.size.1)
    (hy : y < b.size.2) (hl : y * b.size.1 + x < b.data.length) :
    b.set (y, x) v = some ⟨b.size, b.data.set (y * b.size.1 + x) v⟩ := by
  simp [Board.set, hx, hy, hl]

theorem Board.set_pres {b b2 : Board} {p : Nat × Nat} {v : Bool}
    (hs : b.set p v = some b2) : b2.size = b.size ∧ b2.data.length = b.data.length := by
  obtain ⟨y, x⟩ := p
  by_cases hx : x < b.size.1
  · by_cases hy : y < b.size.2
    · by_cases hl : y * b.size.1 + x < b.data.length
      · rw [Board.set_eq_some hx hy hl] at hs
        cases hs
        simp
      · simp [Board.set, hx, hy, hl] at hs
    · simp [Board.set, hx, hy] at hs
  · simp [Board.set, hx] at hs

theorem Board.index_eq {b : Board} {y x : Nat} (hx : x < b.size.1) (hy : y < b.size.2) :
    b.index (y, x) = b.data[y * b.size.1 + x]? := by
  simp [Board.index, hx, hy]

/-! ## Characterization of the fill loops of next and resize

Both Board::next and Board::resize build a fresh all-dead board and fill it with
a nested row/column loop whose per-cell action reads only the source board and
writes only the current cell. The two lemmas below characterize such loops over
a board of dimensions (w, h), with the loop running over rows < LH and
columns < LW. -/

/-- Characterization of one row of a fill loop. -/
theorem fold_inner_char {w h LW LH : Nat} {F : Board → Nat → Nat → Option Board}
    {V : Nat → Nat → Bool} (hLW : LW ≤ w) (hLH : LH ≤ h)
    (Hcell : ∀ j i acc, j < LH → i < LW → acc.size = (w, h) →
      acc.data.length = w * h → acc.data[j * w + i]? = some false →
      ∃ acc2, F acc j i = some acc2 ∧ acc2.size = (w, h) ∧
        acc2.data.length = w * h ∧ acc2.data[j * w + i]? = some (V j i) ∧
        ∀ p, p < w * h → p ≠ j * w + i → acc2.data[p]? = acc.data[p]?)
    {j : Nat} (hj : j < LH) :
    ∀ (m k : Nat) (acc : Board), k + m = LW → acc.size = (w, h) →
      acc.data.length = w * h →
      (∀ i, k ≤ i → i < LW → acc.data[j * w + i]? = some false) →
      ∃ res, (List.range' k m).foldlM (fun a i => F a j i) acc = some res ∧
        res.size = (w, h) ∧ res.data.length = w * h ∧
        (∀ i, k ≤ i → i < LW → res.data[j * w + i]? = some (V j i)) ∧
        (∀ p, p < w * h → (∀ i, k ≤ i → i < LW → p ≠ j * w + i) →
          res.data[p]? = acc.data[p]?) := by
  intro m
  induction m with
  | zero =>
    intro k acc hk hsize hlen hinv
    refine ⟨acc, ?_, hsize, hlen, ?_, ?_⟩
    · simp [List.range'_zero]
    · intro i hki hiLW; omega
    · intro p hp hne; rfl
  | succ m ih =>
    intro k acc hk hsize hlen hinv
    have hkLW : k < LW := by omega
    obtain ⟨acc2, hF, hsize2, hlen2, hcell2, hframe2⟩ :=
      Hcell j k acc hj hkLW hsize hlen (hinv k le_rfl hkLW)
    have hinv2 : ∀ i, k + 1 ≤ i → i < LW → acc2.data[j * w + i]? = some false := by
      intro i hki hiLW
      have hplt : j * w + i < w * h :=
        flat_lt (lt_of_lt_of_le hj hLH) (lt_of_lt_of_le hiLW hLW)
      have hpne : j * w + i ≠ j * w + k := by
        intro he
        exact absurd (flat_inj (lt_of_lt_of_le hiLW hLW) (lt_of_lt_of_le hkLW hLW) he).2
          (by omega)
      rw [hframe2 _ hplt hpne]
      exact hinv i (by omega) hiLW
    obtain ⟨res, hfold, hsize3, hlen3, hcells3, hframe3⟩ :=
      ih (k + 1) acc2 (by omega) hsize2 hlen2 hinv2
    refine ⟨res, ?_, hsize3, hlen3, ?_, ?_⟩
    · simp only [List.range'_succ, List.foldlM_cons]
      rw [hF]
      simpa using hfold
    · intro i hki hiLW
      rcases Nat.eq_or_lt_of_le hki with rfl | hlt
      · have hplt : j * w + k < w * h :=
          flat_lt (lt_of_lt_of_le hj hLH) (lt_of_lt_of_le hiLW hLW)
        have hne : ∀ i2, k + 1 ≤ i2 → i2 < LW → j * w + k ≠ j * w + i2 := by
          intro i2 h1 h2 he
          exact absurd (flat_inj (lt_of_lt_of_le hiLW hLW) (lt_of_lt_of_le h2 hLW) he).2
            (by omega)
        rw [hframe3 _ hplt hne]
        exact hcell2
      · exact hcells3 i hlt hiLW
    · intro p hp hne
      rw [hframe3 p hp (fun i h1 h2 => hne i (by omega) h2)]
      exact hframe2 p hp (hne k le_rfl hkLW)

/-- Characterization of the whole fill loop (rows outermost). -/
theorem fold_outer_char {w h LW LH : Nat} {F : Board → Nat → Nat → Option Board}
    {V : Nat → Nat → Bool} (hLW : LW ≤ w) (hLH : LH ≤ h)
    (Hcell : ∀ j i acc, j < LH → i < LW → acc.size = (w, h) →
      acc.data.length = w * h → acc.data[j * w + i]? = some false →
      ∃ acc2, F acc j i = some acc2 ∧ acc2.size = (w, h) ∧
        acc2.data.length = w * h ∧ acc2.data[j * w + i]? = some (V j i) ∧
        ∀ p, p < w * h → p ≠ j * w + i → acc2.data[p]? = acc.data[p]?) :
    ∀ (m J : Nat) (acc : Board), J + m = LH → acc.size = (w, h) →
      acc.data.length = w * h →
      (∀ j i, J ≤ j → j < LH → i < LW → acc.data[j * w + i]? = some false) →
      ∃ res, (List.range' J m).foldlM
          (fun a j => (List.range LW).foldlM (fun a2 i => F a2 j i) a) acc = some res ∧
        res.size = (w, h) ∧ res.data.length = w * h ∧
        (∀ j i, J ≤ j → j < LH → i < LW → res.data[j * w + i]? = some (V j i)) ∧
        (∀ p, p < w * h → (∀ j i, J ≤ j → j < LH → i < LW → p ≠ j * w + i) →
          res.data[p]? = acc.data[p]?) := by
  intro m
  induction m with
  | zero =>
    intro J acc hJ hsize hlen hinv
    refine ⟨acc, ?_, hsize, hlen, ?_, ?_⟩
    · simp [List.range'_zero]
    · intro j i hJj hjLH hiLW; omega
    · intro p hp hne; rfl
  | succ m ih =>
    intro J acc hJ hsize hlen hinv
    have hJLH : J < LH := by omega
    obtain ⟨acc2, hrow, hsize2, hlen2, hcells2, hframe2⟩ :=
      (by
        have := fold_inner_char hLW hLH Hcell hJLH LW 0 acc (by omega) hsize hlen
          (fun i h0 hiLW => hinv J i le_rfl hJLH hiLW)
        rwa [← List.range_eq_range'] at this :
        ∃ res, (List.range LW).foldlM (fun a i => F a J i) acc = some res ∧
          res.size = (w, h) ∧ res.data.length = w * h ∧
          (∀ i, 0 ≤ i → i < LW → res.data[J * w + i]? = some (V J i)) ∧
          (∀ p, p < w * h → (∀ i, 0 ≤ i → i < LW → p ≠ J * w + i) →
            res.data[p]? = acc.data[p]?))
    have hinv2 : ∀ j i, J + 1 ≤ j → j < LH → i < LW →
        acc2.data[j * w + i]? = some false := by
      intro j i hJj hjLH hiLW
      have hplt : j * w + i < w * h :=
        flat_lt (lt_of_lt_of_le hjLH hLH) (lt_of_lt_of_le hiLW hLW)
      have hpne : ∀ i2, 0 ≤ i2 → i2 < LW → j * w + i ≠ J * w + i2 := by
        intro i2 h0 h2 he
        exact absurd (flat_inj (lt_of_lt_of_le hiLW hLW) (lt_of_lt_of_le h2 hLW) he).1
          (by omega)
      rw [hframe2 _ hplt hpne]
      exact hinv j i (by omega) hjLH hiLW
    obtain ⟨res, hfold, hsize3, hlen3, hcells3, hframe3⟩ :=
      ih (J + 1) acc2 (by omega) hsize2 hlen2 hinv2
    refine ⟨res, ?_, hsize3, hlen3, ?_, ?_⟩
    · simp only [List.range'_succ, List.foldlM_cons]
      rw [hrow]
      simpa using hfold
    · intro j i hJj hjLH hiLW
      rcases Nat.eq_or_lt_of_le hJj with rfl | hlt
      · have hplt : J * w + i < w * h :=
          flat_lt (lt_of_lt_of_le hjLH hLH) (lt_of_lt_of_le hiLW hLW)
        have hne : ∀ j2 i2, J + 1 ≤ j2 → j2 < LH → i2 < LW →
            J * w + i ≠ j2 * w + i2 := by
          intro j2 i2 h1 h2 h3 he
          exact absurd (flat_inj (lt_of_lt_of_le hiLW hLW) (lt_of_lt_of_le h3 hLW) he).1
            (by omega)
        rw [hframe3 _ hplt hne]
        exact hcells2 i (Nat.zero_le i) hiLW
      · exact hcells3 j i hlt hjLH hiLW
    · intro p hp hne
      rw [hframe3 p hp (fun j i h1 h2 h3 => hne j i (by omega) h2 h3)]
      exact hframe2 p hp (fun i h0 h2 => hne J i le_rfl hJLH h2)

/-! ## Success and abort behavior of Board::next -/

theorem Board.index_some_inv {b : Board} {y x : Nat} {v : Bool}
    (hidx : b.index (y, x) = some v) :
    x < b.size.1 ∧ y < b.size.2 ∧ b.data[y * b.size.1 + x]? = some v := by
  by_cases hx : x < b.size.1
  · by_cases hy : y < b.size.2
    · exact ⟨hx, hy, by rwa [Board.index_eq hx hy] at hidx⟩
    · simp [Board.index, hx, hy] at hidx
  · simp [Board.index, hx] at hidx

/-- When the per-cell test of Board::next succeeds, the count was defined and
the resulting bit is exactly Board.nextVal. -/
theorem Board.nextCheck_some {b : Board} {j i : Nat} {v : Bool}
    (hc : b.nextCheck j i = some v) :
    ∃ n, b.live_neighbors (j, i) = some n ∧ v = b.nextVal j i := by
  unfold Board.nextCheck at hc
  cases hln : b.live_neighbors (j, i) with
  | none => rw [hln] at hc; cases hc
  | some n =>
    rw [hln] at hc
    simp only [Option.some_bind] at hc
    refine ⟨n, rfl, ?_⟩
    by_cases hn3 : n = 3
    · subst hn3
      rw [if_pos rfl] at hc
      cases hc
      simp [Board.nextVal, hln]
    · by_cases hn2 : n = 2
      · subst hn2
        rw [if_neg hn3, if_pos rfl] at hc
        obtain ⟨hx, hy, hget⟩ := Board.index_some_inv hc
        simp [Board.nextVal, hln, hn3, List.getD_eq_getElem?_getD, hget]
      · rw [if_neg hn3, if_neg hn2] at hc
        cases hc
        simp [Board.nextVal, hln, hn3, hn2]

theorem Board.nextCheck_none {b : Board} {j i : Nat}
    (hln : b.live_neighbors (j, i) = none) : b.nextCheck j i = none := by
  unfold Board.nextCheck
  rw [hln]
  rfl

/-- If some window cell of (y, x) is out of bounds, live_neighbors aborts. -/
theorem Board.live_neighbors_none {b : Board} {y x : Nat} (j2 i2 : Nat)
    (hjm : j2 ∈ b.rowRange y) (him : i2 ∈ b.colRange x)
    (hidx : b.index (j2, i2) = none) : b.live_neighbors (y, x) = none := by
  have hmem : (j2, i2) ∈ (b.rowRange y).flatMap fun j => (b.colRange x).map fun i => (j, i) := by
    rw [List.mem_flatMap]
    exact ⟨j2, hjm, List.mem_map.mpr ⟨i2, him, rfl⟩⟩
  have hm := mapM_none_of_mem
    (f := fun c : Nat × Nat =>
      (b.index c).map fun v => if v && !(c.2 == x && c.1 == y) then (1 : Nat) else 0)
    hmem (by simp [hidx])
  show (((b.rowRange y).flatMap fun j => (b.colRange x).map fun i => (j, i)).mapM fun c =>
      (b.index c).map fun v => if v && !(c.2 == x && c.1 == y) then (1 : Nat) else 0).map
      List.sum = none
  rw [hm]
  rfl

/-- If the cell test aborts at some in-range cell, the whole step aborts. -/
theorem Board.next_none_of_cell {b : Board} (j0 i0 : Nat) (hj : j0 < b.size.2)
    (hi : i0 < b.size.1) (hc : b.nextCheck j0 i0 = none) : b.next = none := by
  have hcell : ∀ acc : Board, b.nextCell j0 i0 acc = none := by
    intro acc
    unfold Board.nextCell
    rw [hc]
    rfl
  have hrow : ∀ acc : Board, b.nextRow j0 acc = none := fun acc =>
    foldlM_none_of_mem (List.mem_range.mpr hi) hcell
  unfold Board.next
  cases hnew : Board.new b.size.1 b.size.2 with
  | none => rfl
  | some start =>
    simp only [Option.some_bind]
    exact foldlM_none_of_mem (List.mem_range.mpr hj) hrow

/-- Success characterization of Board::next: if the dimensions do not overflow
and every cell's test succeeds, next returns the board of nextVal bits. -/
theorem Board.next_of_success {b : Board}
    (hmul : b.size.1 * b.size.2 ≤ USIZE_MAX)
    (hsucc : ∀ j i, j < b.size.2 → i < b.size.1 → ∃ v, b.nextCheck j i = some v) :
    ∃ res, b.next = some res ∧ res.size = b.size ∧
      res.data.length = b.size.1 * b.size.2 ∧
      ∀ j i, j < b.size.2 → i < b.size.1 →
        res.data[j * b.size.1 + i]? = some (b.nextVal j i) := by
  have Hcell : ∀ j i acc, j < b.size.2 → i < b.size.1 →
      acc.size = (b.size.1, b.size.2) → acc.data.length = b.size.1 * b.size.2 →
      acc.data[j * b.size.1 + i]? = some false →
      ∃ acc2, b.nextCell j i acc = some acc2 ∧ acc2.size = (b.size.1, b.size.2) ∧
        acc2.data.length = b.size.1 * b.size.2 ∧
        acc2.data[j * b.size.1 + i]? = some (b.nextVal j i) ∧
        ∀ p, p < b.size.1 * b.size.2 → p ≠ j * b.size.1 + i →
          acc2.data[p]? = acc.data[p]? := by
    intro j i acc hj hi hsize hlen hfalse
    obtain ⟨v, hv⟩ := hsucc j i hj hi
    obtain ⟨n, hln, hval⟩ := Board.nextCheck_some hv
    unfold Board.nextCell
    rw [hv]
    simp only [Option.some_bind]
    cases hvv : v with
    | true =>
      have hx : i < acc.size.1 := by rw [hsize]; exact hi
      have hy : j < acc.size.2 := by rw [hsize]; exact hj
      have hfl : j * acc.size.1 + i < acc.data.length := by
        rw [hlen, hsize]
        exact flat_lt hj hi
      refine ⟨⟨acc.size, acc.data.set (j * acc.size.1 + i) true⟩, ?_, ?_, ?_, ?_, ?_⟩
      · rw [if_pos rfl]
        exact Board.set_eq_some hx hy hfl
      · exact hsize
      · rw [List.length_set]
        exact hlen
      · have hfl2 : j * b.size.1 + i < acc.data.length := by
          rw [hlen]
          exact flat_lt hj hi
        simp only [hsize, List.getElem?_set, if_pos rfl, hfl2, if_true]
        rw [← hval, hvv]
      · intro p hp hpne
        simp only [hsize, List.getElem?_set]
        rw [if_neg (fun he => hpne he.symm)]
    | false =>
      rw [if_neg (by simp)]
      refine ⟨acc, rfl, hsize, hlen, ?_, fun p hp hpne => rfl⟩
      rw [hfalse, ← hval, hvv]
  obtain ⟨res, hfold, hsize, hlen, hcells, hframe⟩ :=
    fold_outer_char (le_refl b.size.1) (le_refl b.size.2)
      (F := fun a j i => b.nextCell j i a) (V := b.nextVal) Hcell
      b.size.2 0 ⟨(b.size.1, b.size.2), List.replicate (b.size.1 * b.size.2) false⟩
      (by omega) rfl (by simp) (by
        intro j i h0 hj hi
        rw [List.getElem?_replicate, if_pos (flat_lt hj hi)])
  refine ⟨res, ?_, by rw [hsize], hlen, fun j i hj hi => hcells j i (Nat.zero_le j) hj hi⟩
  unfold Board.next
  rw [Board.new_some hmul]
  simp only [Option.some_bind, Board.nextRow]
  rw [← List.range_eq_range'] at hfold
  exact hfold

/-! ## Success characterization of Board::resize -/

theorem Board.resize_spec {b : Board} {W H : Nat}
    (hvalid : b.data.length = b.size.1 * b.size.2)
    (hmul : W * H ≤ USIZE_MAX) :
    ∃ r, b.resize W H = some r ∧ r.size = (W, H) ∧ r.data.length = W * H ∧
      (∀ y x, y < min H b.size.2 → x < min W b.size.1 →
        r.data[y * W + x]? = some (b.data.getD (y * b.size.1 + x) false)) ∧
      (∀ p, p < W * H →
        (∀ y x, y < min H b.size.2 → x < min W b.size.1 → p ≠ y * W + x) →
        r.data[p]? = some false) := by
  have Hcell : ∀ y x acc, y < min H b.size.2 → x < min W b.size.1 →
      acc.size = (W, H) → acc.data.length = W * H →
      acc.data[y * W + x]? = some false →
      ∃ acc2, b.resizeCell y x acc = some acc2 ∧ acc2.size = (W, H) ∧
        acc2.data.length = W * H ∧
        acc2.data[y * W + x]? = some (b.data.getD (y * b.size.1 + x) false) ∧
        ∀ p, p < W * H → p ≠ y * W + x → acc2.data[p]? = acc.data[p]? := by
    intro y x acc hy hx hsize hlen hfalse
    have hx2 : x < b.size.1 := lt_of_lt_of_le hx (min_le_right W b.size.1)
    have hy2 : y < b.size.2 := lt_of_lt_of_le hy (min_le_right H b.size.2)
    have hlt : y * b.size.1 + x < b.data.length := by
      rw [hvalid]
      exact flat_lt hy2 hx2
    have hidx : b.index (y, x) = some (b.data.getD (y * b.size.1 + x) false) := by
      rw [Board.index_eq hx2 hy2, List.getD_eq_getElem?_getD,
        List.getElem?_eq_getElem hlt]
      rfl
    unfold Board.resizeCell
    rw [hidx]
    simp only [Option.some_bind]
    have hxW : x < acc.size.1 := by
      rw [hsize]
      exact lt_of_lt_of_le hx (min_le_left W b.size.1)
    have hyH : y < acc.size.2 := by
      rw [hsize]
      exact lt_of_lt_of_le hy (min_le_left H b.size.2)
    have hfl : y * acc.size.1 + x < acc.data.length := by
      rw [hlen, hsize]
      exact flat_lt (lt_of_lt_of_le hy (min_le_left H b.size.2))
        (lt_of_lt_of_le hx (min_le_left W b.size.1))
    refine ⟨⟨acc.size, acc.data.set (y * acc.size.1 + x) (b.data.getD (y * b.size.1 + x) false)⟩,
      Board.set_eq_some hxW hyH hfl, hsize, ?_, ?_, ?_⟩
    · rw [List.length_set]
      exact hlen
    · have hfl2 : y * W + x < acc.data.length := by
        rw [hlen]
        exact flat_lt (lt_of_lt_of_le hy (min_le_left H b.size.2))
          (lt_of_lt_of_le hx (min_le_left W b.size.1))
      simp only [hsize, List.getElem?_set, if_pos rfl, hfl2, if_true]
    · intro p hp hpne
      simp only [hsize, List.getElem?_set]
      rw [if_neg (fun he => hpne he.symm)]
  obtain ⟨res, hfold, hsize, hlen, hcells, hframe⟩ :=
    fold_outer_char (min_le_left W b.size.1) (min_le_left H b.size.2)
      (F := fun a y x => b.resizeCell y x a)
      (V := fun y x => b.data.getD (y * b.size.1 + x) false) Hcell
      (min H b.size.2) 0 ⟨(W, H), List.replicate (W * H) false⟩
      (by omega) rfl (by simp) (by
        intro y x h0 hy hx
        rw [List.getElem?_replicate,
          if_pos (flat_lt (lt_of_lt_of_le hy (min_le_left H b.size.2))
            (lt_of_lt_of_le hx (min_le_left W b.size.1)))])
  refine ⟨res, ?_, hsize, hlen, fun y x hy hx => hcells y x (Nat.zero_le y) hy hx,
    fun p hp hne => by
      rw [hframe p hp (fun y x hy0 hy hx => hne y x hy hx)]
      rw [List.getElem?_replicate, if_pos hp]⟩
  unfold Board.resize
  rw [Board.new_some hmul]
  simp only [Option.some_bind]
  rw [← List.range_eq_range'] at hfold
  exact hfold

/-! ## Abort behavior on thin and non-square grids -/

/-- A board of width 1 aborts in step at cell (0, 0): the column window {0, 1}
reaches column 1. -/
theorem Board.next_none_w1 {b : Board} (hw : b.size.1 = 1) (hh : 1 ≤ b.size.2) :
    b.next = none := by
  apply Board.next_none_of_cell 0 0 hh (by omega)
  apply Board.nextCheck_none
  apply Board.live_neighbors_none 0 1
  · simp [Board.rowRange, rangeIncl, List.mem_range'_1]
  · simp [Board.colRange, rangeIncl, List.mem_range'_1]
  · simp [Board.index, hw]

/-- A board of height 1 and width ≥ 2 aborts in step at cell (0, 0): the row
window {0, 1} reaches row 1. -/
theorem Board.next_none_h1 {b : Board} (hw : 2 ≤ b.size.1) (hh : b.size.2 = 1) :
    b.next = none := by
  apply Board.next_none_of_cell 0 0 (by omega) (by omega)
  apply Board.nextCheck_none
  apply Board.live_neighbors_none 1 0
  · simp [Board.rowRange, rangeIncl, List.mem_range'_1]
  · simp [Board.colRange, rangeIncl, List.mem_range'_1]
  · have h0 : 0 < b.size.1 := by omega
    simp [Board.index, h0, hh]

/-- A non-square board with both dimensions ≥ 2 aborts in step at cell
(height - 1, 0): the row test compares against width - 1, so the unclamped
window [height - 2, height] reaches row height. -/
theorem Board.next_none_nonsquare {b : Board} (hw : 2 ≤ b.size.1) (hh : 2 ≤ b.size.2)
    (hne : b.size.1 ≠ b.size.2) : b.next = none := by
  apply Board.next_none_of_cell (b.size.2 - 1) 0 (by omega) (by omega)
  apply Board.nextCheck_none
  apply Board.live_neighbors_none b.size.2 0
  · rw [Board.rowRange, if_neg (by omega), if_neg (by omega)]
    simp only [rangeIncl, List.mem_range'_1]
    omega
  · simp [Board.colRange, rangeIncl, List.mem_range'_1]
  · have h0 : 0 < b.size.1 := by omega
    simp [Board.index, h0]

/-- Step on a zero-area board: the loops never index anything and the result is
the zero-area board of the same dimensions. -/
theorem Board.next_zero {b : Board} (h0 : b.size.1 = 0 ∨ b.size.2 = 0) :
    b.next = some ⟨b.size, []⟩ := by
  have hmul : b.size.1 * b.size.2 ≤ USIZE_MAX := by
    rcases h0 with h | h <;> simp [h]
  have hrepl : List.replicate (b.size.1 * b.size.2) false = ([] : List Bool) := by
    rcases h0 with h | h <;> simp [h]
  unfold Board.next
  rw [Board.new_some hmul]
  simp only [Option.some_bind]
  rcases h0 with h | h
  · have hrow : ∀ (a : Board) (j : Nat), j ∈ List.range b.size.2 → b.nextRow j a = some a := by
      intro a j hj
      unfold Board.nextRow
      rw [h]
      rfl
    rw [foldlM_some_id (fun a x hx => hrow a x hx), hrepl]
  · have hrow0 : List.range b.size.2 = [] := by rw [h]; rfl
    rw [hrow0, hrepl]
    rfl

/-! ## Invariant preservation -/

theorem Board.eq_of_parts {b1 b2 : Board} (hs : b1.size = b2.size)
    (hd : b1.data = b2.data) : b1 = b2 := by
  obtain ⟨s1, d1⟩ := b1
  obtain ⟨s2, d2⟩ := b2
  cases hs
  cases hd
  rfl

theorem Board.nextCell_pres {b : Board} {j i : Nat} {a a2 : Board}
    (hs : b.nextCell j i a = some a2) :
    a2.size = a.size ∧ a2.data.length = a.data.length := by
  unfold Board.nextCell at hs
  cases hc : b.nextCheck j i with
  | none => rw [hc] at hs; cases hs
  | some v =>
    rw [hc] at hs
    simp only [Option.some_bind] at hs
    by_cases hv : v = true
    · rw [if_pos hv] at hs
      exact Board.set_pres hs
    · rw [if_neg hv] at hs
      cases hs
      exact ⟨rfl, rfl⟩

theorem Board.next_pres {b bn : Board} (hs : b.next = some bn) :
    bn.size = (b.size.1, b.size.2) ∧ bn.data.length = b.size.1 * b.size.2 := by
  unfold Board.next at hs
  cases hnew : Board.new b.size.1 b.size.2 with
  | none => rw [hnew] at hs; cases hs
  | some start =>
    rw [hnew] at hs
    simp only [Option.some_bind] at hs
    obtain ⟨hm, hstart⟩ := Board.new_some_inv hnew
    subst hstart
    have hstart2 : (⟨(b.size.1, b.size.2),
        List.replicate (b.size.1 * b.size.2) false⟩ : Board).size = (b.size.1, b.size.2) ∧
        (⟨(b.size.1, b.size.2),
          List.replicate (b.size.1 * b.size.2) false⟩ : Board).data.length =
          b.size.1 * b.size.2 :=
      ⟨rfl, List.length_replicate _ _⟩
    refine foldlM_preserves (P := fun a : Board => a.size = (b.size.1, b.size.2) ∧
      a.data.length = b.size.1 * b.size.2) hstart2 ?_ hs
    intro acc acc2 j hj hP hrow
    unfold Board.nextRow at hrow
    refine foldlM_preserves (P := fun a : Board => a.size = (b.size.1, b.size.2) ∧
      a.data.length = b.size.1 * b.size.2) hP ?_ hrow
    intro a a2 i hi hP2 hcell
    obtain ⟨h1, h2⟩ := Board.nextCell_pres hcell
    exact ⟨h1.trans hP2.1, h2.trans hP2.2⟩

theorem Board.resize_pres {b r : Board} {W H : Nat} (hs : b.resize W H = some r) :
    r.size = (W, H) ∧ r.data.length = W * H := by
  unfold Board.resize at hs
  cases hnew : Board.new W H with
  | none => rw [hnew] at hs; cases hs
  | some start =>
    rw [hnew] at hs
    simp only [Option.some_bind] at hs
    obtain ⟨hm, hstart⟩ := Board.new_some_inv hnew
    subst hstart
    have hstart2 : (⟨(W, H), List.replicate (W * H) false⟩ : Board).size = (W, H) ∧
        (⟨(W, H), List.replicate (W * H) false⟩ : Board).data.length = W * H :=
      ⟨rfl, List.length_replicate _ _⟩
    refine foldlM_preserves (P := fun a : Board => a.size = (W, H) ∧
      a.data.length = W * H) hstart2 ?_ hs
    intro acc acc2 y hy hP hinner
    refine foldlM_preserves (P := fun a : Board => a.size = (W, H) ∧
      a.data.length = W * H) hP ?_ hinner
    intro a a2 x hx hP2 hcell
    unfold Board.resizeCell at hcell
    cases hidx : b.index (y, x) with
    | none => rw [hidx] at hcell; cases hcell
    | some v =>
      rw [hidx] at hcell
      simp only [Option.some_bind] at hcell
      obtain ⟨h1, h2⟩ := Board.set_pres hcell
      exact ⟨h1.trans hP2.1, h2.trans hP2.2⟩

/-! ## Codec lemmas -/

theorem mapM_decodeBool (d : List Bool) : (d.map Json.bool).mapM decodeBool = some d := by
  induction d with
  | nil => rfl
  | cons a l ih =>
    rw [List.map_cons, List.mapM_cons, ih]
    rfl

theorem decodeData_eq (d : List Bool) : decodeData (Json.arr (d.map Json.bool)) = some d := by
  show (d.map Json.bool).mapM decodeBool = some d
  exact mapM_decodeBool d

theorem decodeUsize_nat (n : Nat) (hn : n ≤ USIZE_MAX) :
    decodeUsize (Json.num (n : Int)) = some n := by
  show (if 0 ≤ (n : Int) ∧ (n : Int) ≤ (USIZE_MAX : Int) then some ((n : Int)).toNat
    else none) = some n
  rw [if_pos ⟨Int.natCast_nonneg n, by exact_mod_cast hn⟩, Int.toNat_natCast]

theorem decodeSize_eq (w h : Nat) (hw : w ≤ USIZE_MAX) (hh : h ≤ USIZE_MAX) :
    decodeSize (Json.arr [Json.num (w : Int), Json.num (h : Int)]) = some (w, h) := by
  show (decodeUsize (Json.num (w : Int))).bind
    (fun w2 => (decodeUsize (Json.num (h : Int))).map fun h2 => (w2, h2)) = some (w, h)
  rw [decodeUsize_nat w hw, decodeUsize_nat h hh]
  rfl

theorem deserialize_record (w h : Nat) (d : List Bool) (hw : w ≤ USIZE_MAX)
    (hh : h ≤ USIZE_MAX) :
    Board.deserialize (boardRecord w h d) = some ⟨(w, h), d⟩ := by
  show decodeFields [("size", Json.arr [Json.num (w : Int), Json.num (h : Int)]),
    ("data", Json.arr (d.map Json.bool))] none none = some ⟨(w, h), d⟩
  rw [decodeFields, if_pos rfl, decodeSize_eq w h hw hh]
  show decodeFields [("data", Json.arr (d.map Json.bool))] (some (w, h)) none
    = some ⟨(w, h), d⟩
  rw [decodeFields, if_neg (by decide), if_pos rfl, decodeData_eq]
  rfl

/-- When the count at (y, x) is defined and the cell test succeeded, nextVal is
the B3/S23 bit. -/
theorem Board.nextVal_iff {b : Board} {y x : Nat} {n : Nat} {v2 : Bool}
    (hln : b.live_neighbors (y, x) = some n)
    (hc : b.nextCheck y x = some v2) :
    (b.nextVal y x = true ↔ (n = 3 ∨ (n = 2 ∧ b.index (y, x) = some true))) := by
  by_cases hn3 : n = 3
  · subst hn3
    simp [Board.nextVal, hln]
  · by_cases hn2 : n = 2
    · subst hn2
      have hidx : ∃ vb, b.index (y, x) = some vb := by
        unfold Board.nextCheck at hc
        rw [hln] at hc
        simp only [Option.some_bind] at hc
        rw [if_neg hn3] at hc
        simp only [if_true] at hc
        exact ⟨v2, hc⟩
      obtain ⟨vb, hvb⟩ := hidx
      obtain ⟨hx2, hy2, hget⟩ := Board.index_some_inv hvb
      simp [Board.nextVal, hln, hn3, List.getD_eq_getElem?_getD, hget, hvb]
    · simp [Board.nextVal, hln, hn3, hn2]

/-! ## Claims -/

/-- C1 (code bug): the specification clamps the row window with the height
(`y == height − 1 ⇒ rows [height − 2, height − 1]`), but the code tests
`y == self.size[0] - 1`, i.e. against the width. On the 2×3 all-dead board at
cell (y, x) = (2, 0), y = 2 is height − 1, so the spec window is [1, 2]; the
code takes the unclamped branch [1, 3], touches row 3 ≥ height and aborts. -/
theorem C1_row_clamp_uses_width :
    Board.rowRange ⟨(2, 3), List.replicate 6 false⟩ 2 = [1, 2, 3] ∧
    specRowRange 3 2 = [1, 2] ∧
    Board.live_neighbors ⟨(2, 3), List.replicate 6 false⟩ (2, 0) = none := by
  decide

/-- C4 (corrected): on a zero-area grid step completes and returns the
zero-area grid of the same dimensions, but on a 1×1 grid the clamp does not
collapse — both windows are {0, 1}, which indexes out of bounds — so step
aborts rather than returning an all-dead 1×1 grid. -/
theorem C4_small_grids :
    (∀ b : Board, b.size.1 = 0 ∨ b.size.2 = 0 → b.next = some ⟨b.size, []⟩) ∧
    (∀ b : Board, b.size = (1, 1) → b.next = none) := by
  constructor
  · exact fun b h0 => Board.next_zero h0
  · intro b hs
    exact Board.next_none_w1 (by rw [hs]) (by rw [hs])

/-- C4 counterexample: the claim says step on a 1×1 grid returns a 1×1
all-dead grid; in fact it aborts. -/
theorem C4_counterexample : (Board.mk (1, 1) [false]).next = none := by
  decide

/-- C4 witness. -/
theorem C4_witness : (Board.mk (0, 5) []).next = some ⟨(Board.mk (0, 5) []).size, []⟩ :=
  C4_small_grids.1 (Board.mk (0, 5) []) (Or.inl rfl)

/-- C5 (confirmed): on every grid with positive, unequal dimensions, step
aborts (the failing cell is (0, 0) when a dimension is 1, and
(height − 1, 0) otherwise, whose row window reaches row = height); step
completes only on zero-area grids or square grids of side ≥ 2. -/
theorem C5_nonsquare_aborts :
    (∀ b : Board, 1 ≤ b.size.1 → 1 ≤ b.size.2 → b.size.1 ≠ b.size.2 →
      b.next = none) ∧
    (∀ b bn : Board, b.next = some bn →
      b.size.1 * b.size.2 = 0 ∨ (b.size.1 = b.size.2 ∧ 2 ≤ b.size.1)) := by
  have part1 : ∀ b : Board, 1 ≤ b.size.1 → 1 ≤ b.size.2 → b.size.1 ≠ b.size.2 →
      b.next = none := by
    intro b hw hh hne
    rcases Nat.lt_or_ge b.size.1 2 with h1 | h2
    · exact Board.next_none_w1 (by omega) hh
    · rcases Nat.lt_or_ge b.size.2 2 with h3 | h4
      · exact Board.next_none_h1 h2 (by omega)
      · exact Board.next_none_nonsquare h2 h4 hne
  refine ⟨part1, ?_⟩
  intro b bn hs
  by_contra hcon
  push_neg at hcon
  obtain ⟨h0, hsq⟩ := hcon
  obtain ⟨hw0, hh0⟩ := Nat.mul_ne_zero_iff.mp h0
  by_cases heq : b.size.1 = b.size.2
  · have hlt : b.size.1 < 2 := hsq heq
    rw [Board.next_none_w1 (by omega) (by omega)] at hs
    cases hs
  · rw [part1 b (by omega) (by omega) heq] at hs
    cases hs

/-- C5 witness. -/
theorem C5_witness : (Board.mk (2, 3) (List.replicate 6 false)).next = none :=
  C5_nonsquare_aborts.1 (Board.mk (2, 3) (List.replicate 6 false))
    (by decide) (by decide) (by decide)

/-- C9 (confirmed): the blinker. One step of the 3×3 grid with row 1 alive
yields column 1 alive; a second step restores row 1. -/
theorem C9_blinker :
    (Board.mk (3, 3) [false, false, false, true, true, true, false, false, false]).next
      = some (Board.mk (3, 3) [false, true, false, false, true, false, false, true, false]) ∧
    (Board.mk (3, 3) [false, true, false, false, true, false, false, true, false]).next
      = some (Board.mk (3, 3) [false, false, false, true, true, true, false, false, false]) := by
  decide

/-- C3 (corrected): whenever step completes, it returns a fresh grid of the
same dimensions whose value at each cell (y, x) is true exactly when the
live-neighbor count n over the clamped window satisfies n = 3, or n = 2 and
the input cell is alive. (The unconditional claim fails: step aborts on
positive non-square grids, see the counterexample.) The input board is a pure
value here, so it is never mutated. -/
theorem C3_step_rule (b bn : Board) (hs : b.next = some bn) :
    bn.size = b.size ∧ bn.data.length = b.size.1 * b.size.2 ∧
    ∀ y x, y < b.size.2 → x < b.size.1 →
      ∃ n v, b.live_neighbors (y, x) = some n ∧ bn.index (y, x) = some v ∧
        (v = true ↔ (n = 3 ∨ (n = 2 ∧ b.index (y, x) = some true))) := by
  have hmul : b.size.1 * b.size.2 ≤ USIZE_MAX := by
    unfold Board.next at hs
    cases hnew : Board.new b.size.1 b.size.2 with
    | none => rw [hnew] at hs; cases hs
    | some start => exact (Board.new_some_inv hnew).1
  by_cases hsucc : ∀ j i, j < b.size.2 → i < b.size.1 → ∃ v, b.nextCheck j i = some v
  · obtain ⟨res, hres, hsize, hlen, hcells⟩ := Board.next_of_success hmul hsucc
    rw [hs] at hres
    obtain rfl : bn = res := Option.some_inj.mp hres
    refine ⟨hsize, hlen, ?_⟩
    intro y x hy hx
    obtain ⟨v2, hv2⟩ := hsucc y x hy hx
    obtain ⟨n, hln, hval⟩ := Board.nextCheck_some hv2
    have hx2 : x < bn.size.1 := by rw [hsize]; exact hx
    have hy2 : y < bn.size.2 := by rw [hsize]; exact hy
    refine ⟨n, b.nextVal y x, hln, ?_, Board.nextVal_iff hln hv2⟩
    rw [Board.index_eq hx2 hy2]
    have hw1 : bn.size.1 = b.size.1 := by rw [hsize]
    rw [hw1]
    exact hcells y x hy hx
  · push_neg at hsucc
    obtain ⟨j, i, hj, hi, hnone⟩ := hsucc
    have hcnone : b.nextCheck j i = none := by
      cases hcv : b.nextCheck j i with
      | none => rfl
      | some v => exact absurd hcv (hnone v)
    rw [Board.next_none_of_cell j i hj hi hcnone] at hs
    cases hs

/-- C3 counterexample: the claim quantifies over every grid, but on the
all-dead 3×2 grid step aborts instead of returning a grid. -/
theorem C3_counterexample : (Board.mk (3, 2) (List.replicate 6 false)).next = none := by
  decide

/-- C3 witness. -/
theorem C3_witness :
    (Board.mk (2, 2) [false, false, false, false]).size
      = (Board.mk (2, 2) [true, false, false, false]).size :=
  (C3_step_rule (Board.mk (2, 2) [true, false, false, false])
    (Board.mk (2, 2) [false, false, false, false]) (by decide)).1

/-- C7 (confirmed): resize returns a grid of the requested dimensions in which
the overlap with the source keeps the source's cell values and every other
cell is dead; the source board is a pure value and is not mutated. -/
theorem C7_resize_overlap (b : Board) (W H : Nat)
    (hvalid : b.data.length = b.size.1 * b.size.2)
    (hmul : W * H ≤ USIZE_MAX) :
    ∃ r, b.resize W H = some r ∧ r.size = (W, H) ∧ r.data.length = W * H ∧
      ∀ y x, y < H → x < W →
        r.index (y, x) = if y < min H b.size.2 ∧ x < min W b.size.1
          then b.index (y, x) else some false := by
  obtain ⟨r, hr, hsize, hlen, hcells, hout⟩ := Board.resize_spec hvalid hmul
  refine ⟨r, hr, hsize, hlen, ?_⟩
  intro y x hy hx
  have hx2 : x < r.size.1 := by rw [hsize]; exact hx
  have hy2 : y < r.size.2 := by rw [hsize]; exact hy
  rw [Board.index_eq hx2 hy2]
  have hsz1 : r.size.1 = W := by rw [hsize]
  rw [hsz1]
  by_cases hov : y < min H b.size.2 ∧ x < min W b.size.1
  · rw [if_pos hov, hcells y x hov.1 hov.2]
    have hx3 : x < b.size.1 := lt_of_lt_of_le hov.2 (min_le_right _ _)
    have hy3 : y < b.size.2 := lt_of_lt_of_le hov.1 (min_le_right _ _)
    have hlt : y * b.size.1 + x < b.data.length := by
      rw [hvalid]
      exact flat_lt hy3 hx3
    rw [Board.index_eq hx3 hy3, List.getD_eq_getElem?_getD,
      List.getElem?_eq_getElem hlt]
    rfl
  · rw [if_neg hov]
    apply hout
    · exact flat_lt hy hx
    · intro y2 x2 hy2' hx2' he
      obtain ⟨h1, h2⟩ := flat_inj hx (lt_of_lt_of_le hx2' (min_le_left _ _)) he
      subst h1
      subst h2
      exact hov ⟨hy2', hx2'⟩

/-- C7 witness (the S5 grow scenario's input). -/
theorem C7_witness :
    ∃ r, (Board.mk (2, 2) [true, true, true, true]).resize 4 4 = some r ∧
      r.size = (4, 4) ∧ r.data.length = 4 * 4 ∧
      ∀ y x, y < 4 → x < 4 →
        r.index (y, x) = if y < min 4 (Board.mk (2, 2) [true, true, true, true]).size.2 ∧
            x < min 4 (Board.mk (2, 2) [true, true, true, true]).size.1
          then (Board.mk (2, 2) [true, true, true, true]).index (y, x) else some false :=
  C7_resize_overlap (Board.mk (2, 2) [true, true, true, true]) 4 4
    (by decide) (by decide)

/-- C10 (confirmed): resizing a valid grid to its own dimensions returns the
identical grid. -/
theorem C10_resize_id (b : Board) (hvalid : b.data.length = b.size.1 * b.size.2)
    (hmul : b.size.1 * b.size.2 ≤ USIZE_MAX) :
    b.resize b.size.1 b.size.2 = some b := by
  obtain ⟨r, hr, hsize, hlen, hcells, hout⟩ := Board.resize_spec hvalid hmul
  have hdata : r.data = b.data := by
    apply List.ext_getElem?
    intro p
    by_cases hp : p < b.size.1 * b.size.2
    · have hw : 0 < b.size.1 := by
        rcases Nat.eq_zero_or_pos b.size.1 with h | h
        · rw [h, Nat.zero_mul] at hp
          exact absurd hp (Nat.not_lt_zero p)
        · exact h
      have hdiv : p / b.size.1 < b.size.2 := by
        rw [Nat.div_lt_iff_lt_mul hw, Nat.mul_comm b.size.2 b.size.1]
        exact hp
      have hmod : p % b.size.1 < b.size.1 := Nat.mod_lt p hw
      have hpeq : p / b.size.1 * b.size.1 + p % b.size.1 = p := by
        rw [Nat.mul_comm]
        exact Nat.div_add_mod p b.size.1
      have hcell := hcells (p / b.size.1) (p % b.size.1)
        (by rw [min_self]; exact hdiv) (by rw [min_self]; exact hmod)
      rw [hpeq] at hcell
      rw [hcell]
      have hplen : p < b.data.length := by
        rw [hvalid]
        exact hp
      rw [List.getD_eq_getElem?_getD, List.getElem?_eq_getElem hplen]
      rfl
    · have h1 : r.data.length ≤ p := by rw [hlen]; omega
      have h2 : b.data.length ≤ p := by rw [hvalid]; omega
      rw [List.getElem?_eq_none h1, List.getElem?_eq_none h2]
  have hsz : r.size = b.size := by rw [hsize]
  rw [Board.eq_of_parts hsz hdata] at hr
  exact hr

/-- C10 witness. -/
theorem C10_witness :
    (Board.mk (2, 2) [true, false, false, true]).resize 2 2
      = some (Board.mk (2, 2) [true, false, false, true]) :=
  C10_resize_id (Board.mk (2, 2) [true, false, false, true]) (by decide) (by decide)

/-- C2 (corrected): the derived decoder accepts any well-typed record — it
performs no |data| = width * height check and it ignores unknown fields — and
fails on records missing a required field. In particular decode can return a
Grid whose data length disagrees with its size. -/
theorem C2_decode_behavior :
    (∀ (w h : Nat) (d : List Bool), w ≤ USIZE_MAX → h ≤ USIZE_MAX →
      Board.deserialize (boardRecord w h d) = some (Board.mk (w, h) d)) ∧
    (∀ (w h : Nat) (d : List Bool) (k : String) (v : Json), w ≤ USIZE_MAX →
      h ≤ USIZE_MAX → k ≠ "size" → k ≠ "data" →
      Board.deserialize (Json.obj
        [("size", Json.arr [Json.num (w : Int), Json.num (h : Int)]),
         ("data", Json.arr (d.map Json.bool)), (k, v)]) = some (Board.mk (w, h) d)) ∧
    (∀ v : Json, Board.deserialize (Json.obj [("size", v)]) = none) := by
  refine ⟨fun w h d hw hh => deserialize_record w h d hw hh, ?_, ?_⟩
  · intro w h d k v hw hh hk1 hk2
    show decodeFields [("size", Json.arr [Json.num (w : Int), Json.num (h : Int)]),
      ("data", Json.arr (d.map Json.bool)), (k, v)] none none = some ⟨(w, h), d⟩
    rw [decodeFields, if_pos rfl, decodeSize_eq w h hw hh]
    show decodeFields [("data", Json.arr (d.map Json.bool)), (k, v)] (some (w, h)) none
      = some ⟨(w, h), d⟩
    rw [decodeFields, if_neg (by decide), if_pos rfl, decodeData_eq]
    show decodeFields [(k, v)] (some (w, h)) (some d) = some ⟨(w, h), d⟩
    rw [decodeFields, if_neg hk1, if_neg hk2]
    rfl
  · intro v
    show decodeFields [("size", v)] none none = none
    rw [decodeFields, if_pos rfl]
    cases hds : decodeSize v with
    | none => rfl
    | some s => rfl

/-- C2 counterexample: a record whose data length (1) disagrees with its size
(1 × 2) decodes successfully, contradicting the claim that decode always fails
on a length mismatch and never returns such a Grid. -/
theorem C2_counterexample :
    Board.deserialize (boardRecord 1 2 [true]) = some (Board.mk (1, 2) [true]) ∧
    (Board.mk (1, 2) [true]).data.length ≠
      (Board.mk (1, 2) [true]).size.1 * (Board.mk (1, 2) [true]).size.2 := by
  decide

/-- C2 witness. -/
theorem C2_witness :
    Board.deserialize (boardRecord 2 2 [true]) = some (Board.mk (2, 2) [true]) :=
  C2_decode_behavior.1 2 2 [true] (by decide) (by decide)

/-- C6 (confirmed): decoding the encoding of any valid grid (with usize-sized
dimensions) returns an equal grid. -/
theorem C6_roundtrip (b : Board) (_hvalid : b.data.length = b.size.1 * b.size.2)
    (hw : b.size.1 ≤ USIZE_MAX) (hh : b.size.2 ≤ USIZE_MAX) :
    Board.deserialize (Board.serialize b) = some b := by
  have hser : Board.serialize b = boardRecord b.size.1 b.size.2 b.data := rfl
  rw [hser, deserialize_record b.size.1 b.size.2 b.data hw hh]

/-- C6 witness. -/
theorem C6_witness :
    Board.deserialize (Board.serialize (Board.mk (2, 1) [true, false])) =
      some (Board.mk (2, 1) [true, false]) :=
  C6_roundtrip (Board.mk (2, 1) [true, false]) (by decide) (by decide) (by decide)

/-- C8 (corrected): the size invariant |data| = width * height holds for every
Grid produced by the constructor, the per-cell setter (from a grid satisfying
it), step, and resize; decode, however, can produce a Grid that violates it
(see the counterexample). -/
theorem C8_invariant :
    (∀ (w h : Nat) (bd : Board), Board.new w h = some bd →
      bd.data.length = bd.size.1 * bd.size.2) ∧
    (∀ (b : Board) (p : Nat × Nat) (v : Bool) (b2 : Board),
      b.data.length = b.size.1 * b.size.2 → b.set p v = some b2 →
      b2.data.length = b2.size.1 * b2.size.2) ∧
    (∀ b bn : Board, b.next = some bn → bn.data.length = bn.size.1 * bn.size.2) ∧
    (∀ (b : Board) (W H : Nat) (r : Board), b.resize W H = some r →
      r.data.length = r.size.1 * r.size.2) := by
  refine ⟨?_, ?_, ?_, ?_⟩
  · intro w h bd hn
    obtain ⟨hm, rfl⟩ := Board.new_some_inv hn
    exact List.length_replicate _ _
  · intro b p v b2 hval hset
    obtain ⟨h1, h2⟩ := Board.set_pres hset
    rw [h1, h2, hval]
  · intro b bn hs
    obtain ⟨h1, h2⟩ := Board.next_pres hs
    rw [h2, h1]
  · intro b W H r hs
    obtain ⟨h1, h2⟩ := Board.resize_pres hs
    rw [h2, h1]

/-- C8 counterexample: a Grid reachable through decode violates the size
invariant, contradicting "holds at all times" over the listed operations. -/
theorem C8_counterexample :
    Board.deserialize (boardRecord 2 2 [true, true, true])
      = some (Board.mk (2, 2) [true, true, true]) ∧
    (Board.mk (2, 2) [true, true, true]).data.length ≠
      (Board.mk (2, 2) [true, true, true]).size.1 *
      (Board.mk (2, 2) [true, true, true]).size.2 := by
  decide

/-- C8 witness. -/
theorem C8_witness :
    (Board.mk (3, 4) (List.replicate 12 false)).data.length =
      (Board.mk (3, 4) (List.replicate 12 false)).size.1 *
      (Board.mk (3, 4) (List.replicate 12 false)).size.2 :=
  C8_invariant.1 3 4 (Board.mk (3, 4) (List.replicate 12 false)) (by decide)
